import Mathlib

/-!
Verification development for the messenger-bot repository: the conversation
store (`ConversationManager`), the periodic cleanup sweep, the outbound
message splitters, webhook verification, the webhook event handler with rate
limiting, and the processed-message dedup mechanism.

Embedding conventions: JS strings are `List Char`; JS `Map` objects are
insertion-ordered association lists; `Date.now()` timestamps are `Nat`
milliseconds; outcomes of external HTTP calls (completion provider, platform
send) are oracle parameters; the observable outbound calls of a handler are
returned as an ordered action list.
-/

/-- JS strings are embedded as lists of characters. -/
abbrev Str := List Char

/-- Whitespace predicate used by the embedding of `String.prototype.trim`. -/
def isWsB (c : Char) : Bool := c = ' ' || c = '\n' || c = '\t' || c = '\r'

/-- Left trim: drop leading whitespace. -/
def ltrim (l : Str) : Str := l.dropWhile isWsB

/-- Right trim: drop trailing whitespace. -/
def rtrim (l : Str) : Str := (l.reverse.dropWhile isWsB).reverse

/-- Embedding of `String.prototype.trim`. -/
def trim (l : Str) : Str := ltrim (rtrim l)

/-- Accumulator-based splitting on the two-character separator `[a, b]`,
scanning left to right exactly like `String.prototype.split`. -/
def split2go (a b : Char) (cur : Str) : Str → List Str
  | [] => [cur.reverse]
  | [x] => [(x :: cur).reverse]
  | x :: y :: t =>
      if x = a ∧ y = b then cur.reverse :: split2go a b [] t
      else split2go a b (x :: cur) (y :: t)

/-- Embedding of `text.split(sep)` for a two-character separator. -/
def split2 (a b : Char) (s : Str) : List Str := split2go a b [] s

/-- Join a list of pieces with a fixed separator between consecutive pieces. -/
def joinSep (sep : Str) : List Str → Str
  | [] => []
  | [x] => x
  | x :: y :: t => x ++ sep ++ joinSep sep (y :: t)

/-- Last `n` elements of a list, in order (embedding of `slice(-n)`). -/
def takeLastN (n : Nat) (l : List α) : List α := l.drop (l.length - n)

/-- Lookup in an insertion-ordered association list (embedding of `Map.get`). -/
def lookupKey : List (Str × α) → Str → Option α
  | [], _ => none
  | (k, v) :: t, u => if k = u then some v else lookupKey t u

/-- Update or append in an insertion-ordered association list
(embedding of `Map.set`). -/
def setKey (u : Str) (v : α) : List (Str × α) → List (Str × α)
  | [] => [(u, v)]
  | (k, w) :: t => if k = u then (u, v) :: t else (k, w) :: setKey u v t

/-- Role tag of a stored conversation turn. -/
inductive Role where
  | user
  | assistant
deriving DecidableEq

/-- A stored turn of `ConversationManager`: role, content, timestamp. -/
structure CMessage where
  role : Role
  content : Str
  timestamp : Nat
deriving DecidableEq

/-- A per-user conversation record of `ConversationManager`. -/
structure Conv where
  messages : List CMessage
  lastActivity : Nat
deriving DecidableEq

/-- The process-wide `conversations` map, as an insertion-ordered list. -/
abbrev Reg := List (Str × Conv)

/-- Configured history cap of the `ConversationManager` revisions. -/
def MAX_HISTORY_MESSAGES : Nat := 10

/-- Configured idle timeout (30 minutes in milliseconds). -/
def CONVERSATION_TIMEOUT : Nat := 30 * 60 * 1000

namespace ConversationManager

/-- Embedding of `getConversation`: returns the existing record, or creates
an empty one (with `lastActivity` set to the current time) for an unknown
user, together with the updated registry. -/
def getConversation (now : Nat) (reg : Reg) (userID : Str) : Conv × Reg :=
  match lookupKey reg userID with
  | some c => (c, reg)
  | none => (⟨[], now⟩, setKey userID ⟨[], now⟩ reg)

/-- Embedding of `addMessage`, generic in the configured cap: pushes a turn,
updates `lastActivity`, and truncates to the last `cap` turns when over cap. -/
def addMessage (cap now : Nat) (reg : Reg) (userID : Str) (role : Role)
    (content : Str) : Reg :=
  let conv := (getConversation now reg userID).1
  let reg1 := (getConversation now reg userID).2
  let msgs := conv.messages ++ [⟨role, content, now⟩]
  let msgs := if cap < msgs.length then takeLastN cap msgs else msgs
  setKey userID ⟨msgs, now⟩ reg1

/-- Embedding of `getHistory`: goes through `getConversation` and returns
that conversation's messages together with the (possibly updated) registry. -/
def getHistory (now : Nat) (reg : Reg) (userID : Str) : List CMessage × Reg :=
  ((getConversation now reg userID).1.messages, (getConversation now reg userID).2)

/-- Embedding of `cleanupOldConversations`: deletes every conversation whose
`lastActivity` is more than `timeout` milliseconds before `now`. -/
def cleanupOldConversations (now timeout : Nat) : Reg → Reg
  | [] => []
  | (u, conv) :: t =>
      if timeout < now - conv.lastActivity then cleanupOldConversations now timeout t
      else (u, conv) :: cleanupOldConversations now timeout t

end ConversationManager

/-- Messages of the user currently stored in the registry ([] if unknown). -/
def historyOf (reg : Reg) (u : Str) : List CMessage :=
  match lookupKey reg u with
  | some c => c.messages
  | none => []

/-- One capped push, the message-list effect of a single `addMessage` call. -/
def cappedPush (cap : Nat) (msgs : List CMessage) (m : CMessage) : List CMessage :=
  let l := msgs ++ [m]
  if cap < l.length then takeLastN cap l else l

/-- A sequence of `addMessage` calls for one user: each input is
(timestamp, role, content). -/
def appendAll (cap : Nat) (reg : Reg) (u : Str) (inputs : List (Nat × Role × Str)) : Reg :=
  inputs.foldl (fun r p => ConversationManager.addMessage cap p.1 r u p.2.1 p.2.2) reg

/-- The turns that a list of `addMessage` inputs stores. -/
def mkTurns (inputs : List (Nat × Role × Str)) : List CMessage :=
  inputs.map fun p => ⟨p.2.1, p.2.2, p.1⟩

/-- Sentence-terminator class of the regex used by `splitIntoChunks`. -/
def isTermB (c : Char) : Bool := c = '.' || c = '!' || c = '?'

/-- Scanner mode for the embedding of `paragraph.match(/[^.!?]+[.!?]+/g)`. -/
inductive MsMode where
  | scan
  | insent (acc : Str)
  | interms (acc : Str)

/-- One-pass scanner equivalent to the global regex match `/[^.!?]+[.!?]+/g`:
a match is a maximal nonempty run of non-terminators followed by a maximal
nonempty run of terminators; unmatched text is skipped. -/
def msGo : Str → MsMode → List Str
  | [], .scan => []
  | [], .insent _ => []
  | [], .interms acc => [acc.reverse]
  | c :: t, .scan => if isTermB c then msGo t .scan else msGo t (.insent [c])
  | c :: t, .insent acc =>
      if isTermB c then msGo t (.interms (c :: acc)) else msGo t (.insent (c :: acc))
  | c :: t, .interms acc =>
      if isTermB c then msGo t (.interms (c :: acc))
      else acc.reverse :: msGo t (.insent [c])

/-- Embedding of `paragraph.match(/[^.!?]+[.!?]+/g)` (empty list for `null`). -/
def matchSentences (s : Str) : List Str := msGo s .scan

/-- Sentence step of `splitMessage` (src/index.js): sentences come from
`paragraph.split('. ')` and get `'. '` re-appended. -/
def smSentStep (maxLength : Nat) (st : List Str × Str) (s : Str) : List Str × Str :=
  let chunks := st.1
  let cur := st.2
  if maxLength < (cur ++ s).length then
    ((if cur ≠ [] then chunks ++ [trim cur] else chunks), s ++ ['.', ' '])
  else (chunks, cur ++ s ++ ['.', ' '])

/-- Paragraph step of `splitMessage` (src/index.js). -/
def smParaStep (maxLength : Nat) (st : List Str × Str) (p : Str) : List Str × Str :=
  let chunks := st.1
  let cur := st.2
  if maxLength < (cur ++ p).length then
    let chunks := if cur ≠ [] then chunks ++ [trim cur] else chunks
    if maxLength < p.length then (split2 '.' ' ' p).foldl (smSentStep maxLength) (chunks, [])
    else (chunks, p ++ ['\n', '\n'])
  else (chunks, cur ++ p ++ ['\n', '\n'])

/-- Embedding of `splitMessage` (src/index.js lines 269-313). -/
def splitMessage (text : Str) (maxLength : Nat) : List Str :=
  if text.length ≤ maxLength then [text]
  else
    let r := (split2 '\n' '\n' text).foldl (smParaStep maxLength) ([], [])
    if r.2 ≠ [] then r.1 ++ [trim r.2] else r.1

/-- Sentence step of `splitIntoChunks` (the part_001 revision): sentences come
from the regex match and are joined with single spaces. -/
def sicSentStep (maxChars : Nat) (st : List Str × Str) (s : Str) : List Str × Str :=
  let chunks := st.1
  let cur := st.2
  if maxChars < (cur ++ ' ' :: s).length then
    ((if trim cur ≠ [] then chunks ++ [trim cur] else chunks), s)
  else (chunks, cur ++ (if cur ≠ [] then ' ' :: s else s))

/-- Paragraph step of `splitIntoChunks` (the part_001 revision). -/
def sicParaStep (maxChars : Nat) (st : List Str × Str) (p : Str) : List Str × Str :=
  let chunks := st.1
  let cur := st.2
  if maxChars < (cur ++ '\n' :: '\n' :: p).length then
    let chunks1 := if trim cur ≠ [] then chunks ++ [trim cur] else chunks
    let cur1 := if trim cur ≠ [] then [] else cur
    if maxChars < p.length then
      let ms := matchSentences p
      let sentences := if ms.isEmpty then [p] else ms
      sentences.foldl (sicSentStep maxChars) (chunks1, cur1)
    else (chunks1, p)
  else (chunks, cur ++ (if cur ≠ [] then '\n' :: '\n' :: p else p))

/-- Embedding of `splitIntoChunks` (part_001 lines 201-247). -/
def splitIntoChunks (text : Str) (maxChars : Nat) : List Str :=
  if text.length ≤ maxChars then [text]
  else
    let r := (split2 '\n' '\n' text).foldl (sicParaStep maxChars) ([], [])
    let chunks := if trim r.2 ≠ [] then r.1 ++ [trim r.2] else r.1
    if chunks.isEmpty then [text] else chunks

/-- Separator strings that the splitters remove from the input: paragraph
separator, sentence separator, plain space, or nothing. -/
def sepChoices : List Str := [['\n', '\n'], ['.', ' '], [' '], []]

/-- Interleave chunks with a list of separator strings (missing separators
count as empty). -/
def joinWithSeps : List Str → List Str → Str
  | [], _ => []
  | [c], _ => c
  | c :: cs, [] => c ++ joinWithSeps cs []
  | c :: cs, sp :: sps => c ++ sp ++ joinWithSeps cs sps

/-- The round-trip property claimed of the splitters: some way of re-joining
the chunks with original separators reproduces the input text. -/
def RejoinsTo (chunks : List Str) (text : Str) : Prop :=
  ∃ seps : List Str, (∀ sp ∈ seps, sp ∈ sepChoices) ∧ joinWithSeps chunks seps = text

/-- Truthiness of an optional string query parameter, as in JS. -/
def truthyStr : Option Str → Bool
  | none => false
  | some [] => false
  | some (_ :: _) => true

/-- Default fallback for the configured verify token. -/
def DEFAULT_VERIFY_TOKEN : Str := "my_secret_verify_token_12345".data

/-- Embedding of the GET /webhook verification handler: response status and
body, given the configured secret and the three query parameters. -/
def verifyWebhook (secret : Str) (mode token challenge : Option Str) : Nat × Str :=
  if truthyStr mode = true ∧ token = some secret then (200, challenge.getD [])
  else (403, [])

/-- A string has visible content when it holds a non-whitespace character. -/
def hasContent (l : Str) : Prop := ∃ c ∈ l, isWsB c = false

instance (l : Str) : Decidable (hasContent l) := by
  unfold hasContent
  infer_instance

/-- Invariant of the `splitMessage` paragraph loop: finished chunks respect
the limit and the pending chunk is empty or content within the limit plus a
trailing paragraph separator. -/
def SMInv (maxLength : Nat) (st : List Str × Str) : Prop :=
  (∀ c ∈ st.1, c.length ≤ maxLength) ∧
  (st.2 = [] ∨ ∃ u, st.2 = u ++ ['\n', '\n'] ∧ u.length ≤ maxLength)

/-- Invariant of the `splitIntoChunks` loop: finished chunks and the pending
chunk respect the limit. -/
def SICInv (maxChars : Nat) (st : List Str × Str) : Prop :=
  (∀ c ∈ st.1, c.length ≤ maxChars) ∧ st.2.length ≤ maxChars

/-- A turn stored by the first src/index.js revision (no timestamp field). -/
structure ChatMsg where
  role : Role
  content : Str
deriving DecidableEq

/-- Observable outbound calls of the per-message handler. -/
inductive FbAction where
  | typingOn
  | typingOff
  | completionCall
  | send (text : Str)
deriving DecidableEq

/-- Mutable state of the first src/index.js revision: `conversationHistory`
and `userLastMessage`. -/
structure BotState where
  hist : List (Str × List ChatMsg)
  rate : List (Str × Nat)
deriving DecidableEq

/-- Result of processing one webhook messaging event: new state, the
outbound calls attempted in order, and whether an error escaped the
per-message try/catch. -/
structure StepResult where
  state : BotState
  actions : List FbAction
  propagated : Bool
deriving DecidableEq

/-- Configured history cap of the first revision (counted in pairs). -/
def MAX_HISTORY : Nat := 5

/-- Debounce window of the rate limiter, in milliseconds. -/
def RATE_LIMIT_MS : Nat := 2000

/-- Canned apology sent when processing a message fails. -/
def apologyText : Str :=
  "😔 Sorry, I encountered an error. Please try again in a moment.".data

/-- Per-accepted-message processing of the first src/index.js revision:
rate limiting, history append with cap, completion call (outcome given by
the `comp` oracle), chunked sends (success given by the `sendOk` oracle),
canned apology on failure, typing indicators around everything. -/
def processMessage (comp : Except Unit Str) (sendOk : Bool) (st : BotState)
    (senderID text : Str) (now : Nat) : StepResult :=
  let last := (lookupKey st.rate senderID).getD 0
  if now - last < RATE_LIMIT_MS then ⟨st, [], false⟩
  else
    let rate1 := setKey senderID now st.rate
    let hist0 := (lookupKey st.hist senderID).getD []
    let h1 := hist0 ++ [⟨Role.user, text⟩]
    let h1 := if MAX_HISTORY * 2 < h1.length then takeLastN (MAX_HISTORY * 2) h1 else h1
    match comp with
    | .ok reply =>
        let h2 := h1 ++ [⟨Role.assistant, reply⟩]
        let st2 : BotState := ⟨setKey senderID h2 st.hist, rate1⟩
        if sendOk then
          ⟨st2, FbAction.typingOn :: FbAction.completionCall ::
                ((splitMessage reply 2000).map FbAction.send ++ [FbAction.typingOff]), false⟩
        else
          match splitMessage reply 2000 with
          | [] => ⟨st2, [FbAction.typingOn, FbAction.completionCall, FbAction.typingOff], false⟩
          | c :: _ =>
              ⟨st2, [FbAction.typingOn, FbAction.completionCall, FbAction.send c,
                     FbAction.send apologyText, FbAction.typingOff], true⟩
    | .error _ =>
        let st2 : BotState := ⟨setKey senderID h1 st.hist, rate1⟩
        ⟨st2, [FbAction.typingOn, FbAction.completionCall, FbAction.send apologyText,
               FbAction.typingOff], !sendOk⟩

/-- Sender field of a messaging event. -/
structure EvSender where
  id : Str
deriving DecidableEq

/-- Message field of a messaging event. -/
structure EvMessage where
  text : Option Str
  is_echo : Bool
  mid : Str
deriving DecidableEq

/-- Postback field of a messaging event. -/
structure EvPostback where
  payload : Str
deriving DecidableEq

/-- One entry of the `messaging` array of a webhook delivery. -/
structure MessagingEvent where
  message : Option EvMessage
  sender : Option EvSender
  postback : Option EvPostback
deriving DecidableEq

/-- The guard of the first revision's message branch: a present, non-empty
text, not an echo, with a sender that is not the page itself. -/
def eventGuard (pageID : Str) (ev : MessagingEvent) : Bool :=
  match ev.message, ev.sender with
  | some m, some s => truthyStr m.text && !m.is_echo && !(s.id = pageID : Bool)
  | _, _ => false

/-- Processing of one messaging event by the first src/index.js revision
(which has no postback branch): filtered events have no effect at all. -/
def processEvent (pageID : Str) (comp : Except Unit Str) (sendOk : Bool)
    (st : BotState) (ev : MessagingEvent) (now : Nat) : StepResult :=
  if eventGuard pageID ev then
    match ev.message, ev.sender with
    | some m, some s => processMessage comp sendOk st s.id (m.text.getD []) now
    | _, _ => ⟨st, [], false⟩
  else ⟨st, [], false⟩

/-- Decimal digit string of a natural number (big-endian), fuel-based. -/
def natReprGo : Nat → Nat → Str
  | 0, _ => []
  | fuel + 1, n =>
      if n < 10 then [Nat.digitChar n]
      else natReprGo fuel (n / 10) ++ [Nat.digitChar (n % 10)]

/-- Embedding of JS number-to-string coercion for a timestamp. -/
def natRepr (n : Nat) : Str := natReprGo (n + 1) n

/-- Numeric value of a digit character. -/
def charVal (c : Char) : Nat := c.toNat - '0'.toNat

/-- Parse a digit string back to a number (left fold). -/
def parseDigits (l : Str) : Nat := l.foldl (fun a c => a * 10 + charVal c) 0

/-- Embedding of the dedup key `${Date.now()}:${senderID}:${messageID}`. -/
def mkMessageKey (now : Nat) (senderID messageID : Str) : Str :=
  natRepr now ++ ':' :: (senderID ++ ':' :: messageID)

/-- Embedding of the dedup check of `processWebhookEvents`: build the key
from the current time, skip if the key is in the set, otherwise add it and
process. Returns whether the message is processed, plus the new set. -/
def dedupStep (now : Nat) (senderID messageID : Str) (processed : List Str) :
    Bool × List Str :=
  let key := mkMessageKey now senderID messageID
  if key ∈ processed then (false, processed)
  else (true, key :: processed)

/-- Whole pieces that `splitMessage` assembles chunks from: the paragraphs of
the input and the `'. '`-split sentence pieces of each paragraph. -/
def smPieces (text : Str) : List Str :=
  split2 '\n' '\n' text ++ (split2 '\n' '\n' text).flatMap fun p => split2 '.' ' ' p

/-- Whole pieces that `splitIntoChunks` assembles chunks from: the paragraphs
of the input and the regex sentence matches of each paragraph. -/
def sicPieces (text : Str) : List Str :=
  split2 '\n' '\n' text ++ (split2 '\n' '\n' text).flatMap fun p => matchSentences p

/-- Strings assembled from whole pieces and separator strings only: such a
string never contains a proper fragment of a piece. -/
inductive PieceConcat (pieces : List Str) : Str → Prop
  | nil : PieceConcat pieces []
  | piece (x rest : Str) (hx : x ∈ pieces) (hr : PieceConcat pieces rest) :
      PieceConcat pieces (x ++ rest)
  | sep (s rest : Str) (hs : s ∈ sepChoices) (hr : PieceConcat pieces rest) :
      PieceConcat pieces (s ++ rest)

/-- Sentence/paragraph integrity of one chunk: it is the whole input, or the
trim of a concatenation of whole pieces and separators — never a chunk that
cuts a sentence piece in the middle. -/
def IntactChunk (pieces : List Str) (text c : Str) : Prop :=
  c = text ∨ ∃ w, PieceConcat pieces w ∧ c = trim w

/-- Invariant of both splitter loops for sentence/paragraph integrity:
accumulated chunks are trims of whole-piece concatenations and the pending
chunk is a whole-piece concatenation. -/
def PieceInv (pieces : List Str) (st : List Str × Str) : Prop :=
  (∀ c ∈ st.1, ∃ w, PieceConcat pieces w ∧ c = trim w) ∧ PieceConcat pieces st.2


theorem lookupKey_setKey_self (u : Str) (v : α) (reg : List (Str × α)) :
    lookupKey (setKey u v reg) u = some v := by
  induction reg with
  | nil => simp [setKey, lookupKey]
  | cons h t ih =>
      obtain ⟨k, w⟩ := h
      by_cases hk : k = u
      · simp [setKey, hk, lookupKey]
      · simp [setKey, hk, lookupKey, ih]

theorem historyOf_addMessage (cap now : Nat) (reg : Reg) (u : Str) (r : Role) (c : Str) :
    historyOf (ConversationManager.addMessage cap now reg u r c) u
      = cappedPush cap (historyOf reg u) ⟨r, c, now⟩ := by
  unfold ConversationManager.addMessage cappedPush historyOf ConversationManager.getConversation
  cases h : lookupKey reg u <;> simp [h, lookupKey_setKey_self]

theorem takeLastN_of_le {l : List α} {n : Nat} (h : l.length ≤ n) : takeLastN n l = l := by
  simp [takeLastN, Nat.sub_eq_zero_of_le h]

theorem length_takeLastN (n : Nat) (l : List α) :
    (takeLastN n l).length = l.length - (l.length - n) := by
  simp [takeLastN]

theorem takeLastN_idem_append (n : Nat) (a b : List α) :
    takeLastN n (takeLastN n a ++ b) = takeLastN n (a ++ b) := by
  rcases le_or_lt a.length n with h | h
  · rw [takeLastN_of_le h]
  · unfold takeLastN
    rw [← List.drop_append_of_le_length (by omega : a.length - n ≤ a.length)]
    rw [List.drop_drop]
    congr 1
    simp
    omega

theorem cappedPush_eq (cap : Nat) (m : List CMessage) (t : CMessage) :
    cappedPush cap m t = takeLastN cap (m ++ [t]) := by
  show (if cap < (m ++ [t]).length then takeLastN cap (m ++ [t]) else m ++ [t])
      = takeLastN cap (m ++ [t])
  split
  · rfl
  · next h => rw [takeLastN_of_le (Nat.le_of_not_lt h)]

theorem length_takeLastN_le (n : Nat) (l : List α) : (takeLastN n l).length ≤ n := by
  simp [takeLastN]
  omega

theorem foldl_cappedPush (cap : Nat) (ts : List CMessage) :
    ∀ (m : List CMessage), m.length ≤ cap →
      ts.foldl (cappedPush cap) m = takeLastN cap (m ++ ts) := by
  induction ts with
  | nil => intro m hm; simp [takeLastN_of_le hm]
  | cons t ts ih =>
      intro m hm
      rw [List.foldl_cons, cappedPush_eq]
      rw [ih _ (length_takeLastN_le cap (m ++ [t]))]
      rw [takeLastN_idem_append]
      simp

theorem historyOf_appendAll (cap : Nat) (u : Str) (inputs : List (Nat × Role × Str)) :
    ∀ (reg : Reg),
      historyOf (appendAll cap reg u inputs) u
        = (mkTurns inputs).foldl (cappedPush cap) (historyOf reg u) := by
  induction inputs with
  | nil => intro reg; simp [appendAll, mkTurns]
  | cons i t ih =>
      intro reg
      show historyOf (appendAll cap (ConversationManager.addMessage cap i.1 reg u i.2.1 i.2.2) u t) u = _
      rw [ih, historyOf_addMessage]
      rfl

theorem lookupKey_appendAll_isSome (cap : Nat) (u : Str) (inputs : List (Nat × Role × Str)) :
    ∀ (reg : Reg), inputs ≠ [] → (lookupKey (appendAll cap reg u inputs) u).isSome := by
  induction inputs with
  | nil => simp
  | cons i t ih =>
      intro reg _
      by_cases ht : t = []
      · subst ht
        show (lookupKey (ConversationManager.addMessage cap i.1 reg u i.2.1 i.2.2) u).isSome
        unfold ConversationManager.addMessage
        simp [lookupKey_setKey_self]
      · exact ih (ConversationManager.addMessage cap i.1 reg u i.2.1 i.2.2) ht

theorem getHistory_of_isSome {reg : Reg} {u : Str} (h : (lookupKey reg u).isSome) (now : Nat) :
    ConversationManager.getHistory now reg u = (historyOf reg u, reg) := by
  unfold ConversationManager.getHistory ConversationManager.getConversation historyOf
  cases hq : lookupKey reg u
  · rw [hq] at h; simp at h
  · simp [hq]

/-- C1: after a sequence of more than `cap` append calls for a user, the
stored history returned by `getHistory` is exactly the most recent `cap`
appended turns, in chronological order. -/
theorem addMessage_keeps_most_recent_cap (cap tq : Nat) (reg : Reg) (u : Str)
    (inputs : List (Nat × Role × Str))
    (hinit : (historyOf reg u).length ≤ cap) (hN : cap < inputs.length) :
    (ConversationManager.getHistory tq (appendAll cap reg u inputs) u).1
      = takeLastN cap (mkTurns inputs) := by
  have hne : inputs ≠ [] := by
    intro h
    subst h
    simp at hN
  rw [getHistory_of_isSome (lookupKey_appendAll_isSome cap u inputs reg hne) tq]
  show historyOf (appendAll cap reg u inputs) u = _
  rw [historyOf_appendAll, foldl_cappedPush cap _ _ hinit]
  unfold takeLastN
  have hlen : (mkTurns inputs).length = inputs.length := by simp [mkTurns]
  rw [show (historyOf reg u ++ mkTurns inputs).length - cap
        = (historyOf reg u).length + ((mkTurns inputs).length - cap) by simp; omega]
  rw [List.drop_append]

theorem addMessage_keeps_most_recent_cap_witness :
    (historyOf ([] : Reg) ['u']).length ≤ 2 ∧ 2 < ([(1, Role.user, ['a']), (2, Role.assistant, ['b']), (3, Role.user, ['c'])] : List (Nat × Role × Str)).length ∧
    (ConversationManager.getHistory 9
        (appendAll 2 [] ['u'] [(1, Role.user, ['a']), (2, Role.assistant, ['b']), (3, Role.user, ['c'])]) ['u']).1
      = takeLastN 2 (mkTurns [(1, Role.user, ['a']), (2, Role.assistant, ['b']), (3, Role.user, ['c'])]) :=
  ⟨by decide, by decide,
    addMessage_keeps_most_recent_cap 2 9 [] ['u'] _ (by decide) (by decide)⟩

/-- C2: the periodic sweep removes exactly the sessions whose `lastActivity`
is strictly older than the timeout and keeps every other session unchanged,
in order. -/
theorem cleanupOldConversations_removes_exactly_expired (now timeout : Nat) (reg : Reg) :
    ConversationManager.cleanupOldConversations now timeout reg
      = reg.filter (fun e => decide (now - e.2.lastActivity ≤ timeout)) := by
  induction reg with
  | nil => rfl
  | cons h t ih =>
      obtain ⟨u, conv⟩ := h
      rw [List.filter_cons]
      by_cases hc : timeout < now - conv.lastActivity
      · rw [show ConversationManager.cleanupOldConversations now timeout ((u, conv) :: t)
              = ConversationManager.cleanupOldConversations now timeout t by
            simp [ConversationManager.cleanupOldConversations, hc]]
        rw [ih]
        have hd : ¬ (now - conv.lastActivity ≤ timeout) := by omega
        simp [hd]
      · rw [show ConversationManager.cleanupOldConversations now timeout ((u, conv) :: t)
              = (u, conv) :: ConversationManager.cleanupOldConversations now timeout t by
            simp [ConversationManager.cleanupOldConversations, hc]]
        rw [ih]
        have hd : now - conv.lastActivity ≤ timeout := by omega
        simp [hd]

/-- C3 counterexample: `getHistory` on an unknown user is not read-only: it
creates a fresh session entry in the registry. -/
theorem getHistory_creates_entry_for_unknown_user :
    (ConversationManager.getHistory 5 ([] : Reg) ['u']).2 = [(['u'], ⟨[], 5⟩)] ∧
    (ConversationManager.getHistory 5 ([] : Reg) ['u']).2 ≠ ([] : Reg) := by
  constructor
  · rfl
  · decide

/-- C3 amended: `getHistory` returns the stored turn sequence and leaves the
registry unchanged for a known user; for an unknown user it returns the empty
sequence but inserts a fresh empty session whose `lastActivity` is now. -/
theorem getHistory_read_behavior (now : Nat) (reg : Reg) (u : Str) :
    (∀ c, lookupKey reg u = some c →
        ConversationManager.getHistory now reg u = (c.messages, reg)) ∧
    (lookupKey reg u = none →
        ConversationManager.getHistory now reg u = ([], setKey u ⟨[], now⟩ reg)) := by
  constructor
  · intro c hc
    unfold ConversationManager.getHistory ConversationManager.getConversation
    simp [hc]
  · intro hc
    unfold ConversationManager.getHistory ConversationManager.getConversation
    simp [hc]

theorem getHistory_read_behavior_witness :
    ConversationManager.getHistory 7 [(['u'], ⟨[⟨Role.user, ['h'], 3⟩], 3⟩)] ['u']
        = ([⟨Role.user, ['h'], 3⟩], [(['u'], ⟨[⟨Role.user, ['h'], 3⟩], 3⟩)]) ∧
    ConversationManager.getHistory 7 ([] : Reg) ['v'] = ([], setKey ['v'] ⟨[], 7⟩ []) :=
  ⟨(getHistory_read_behavior 7 [(['u'], ⟨[⟨Role.user, ['h'], 3⟩], 3⟩)] ['u']).1
      ⟨[⟨Role.user, ['h'], 3⟩], 3⟩ (by decide),
   (getHistory_read_behavior 7 [] ['v']).2 (by decide)⟩

/-- C4 counterexample: splitting drops input characters, so no re-joining with
separators can reproduce the input ("bb" is lost entirely). -/
theorem splitIntoChunks_not_roundtrip :
    splitIntoChunks "aa. bb".data 4 = ["aa.".data] ∧
    ¬ RejoinsTo (splitIntoChunks "aa. bb".data 4) "aa. bb".data := by
  have hchunks : splitIntoChunks "aa. bb".data 4 = ["aa.".data] := by decide
  refine ⟨hchunks, ?_⟩
  rw [hchunks]
  rintro ⟨seps, -, hj⟩
  have hsingle : joinWithSeps ["aa.".data] seps = "aa.".data := by
    cases seps <;> rfl
  rw [hsingle] at hj
  exact absurd hj (by decide)

/-- C4 amended: when the input already fits in the limit both splitters
return it unchanged as the single chunk, and the round-trip holds. -/
theorem split_roundtrip_of_short_input (text : Str) (maxLength : Nat)
    (h : text.length ≤ maxLength) :
    splitMessage text maxLength = [text] ∧
    splitIntoChunks text maxLength = [text] ∧
    RejoinsTo (splitMessage text maxLength) text := by
  have h1 : splitMessage text maxLength = [text] := by
    unfold splitMessage
    rw [if_pos h]
  have h2 : splitIntoChunks text maxLength = [text] := by
    unfold splitIntoChunks
    rw [if_pos h]
  refine ⟨h1, h2, ⟨[], by simp, ?_⟩⟩
  rw [h1]
  rfl

theorem split_roundtrip_of_short_input_witness :
    ("hi. there".data : Str).length ≤ 2000 ∧
    splitMessage "hi. there".data 2000 = ["hi. there".data] ∧
    splitIntoChunks "hi. there".data 2000 = ["hi. there".data] ∧
    RejoinsTo (splitMessage "hi. there".data 2000) "hi. there".data :=
  ⟨by decide, split_roundtrip_of_short_input "hi. there".data 2000 (by decide)⟩

/-- C6 counterexample: with `hub.verify_token` equal to the configured secret
but `hub.mode` absent, the handler rejects with 403 instead of echoing the
challenge. -/
theorem verifyWebhook_matching_token_rejected_without_mode :
    verifyWebhook DEFAULT_VERIFY_TOKEN none (some DEFAULT_VERIFY_TOKEN)
        (some "challenge123".data) = (403, []) ∧
    (verifyWebhook DEFAULT_VERIFY_TOKEN none (some DEFAULT_VERIFY_TOKEN)
        (some "challenge123".data)).1 ≠ 200 := by
  constructor
  · rfl
  · decide

/-- C6 amended: the handler answers 200 with the challenge as body exactly
when `hub.mode` is truthy and `hub.verify_token` equals the secret, and 403
with an empty body otherwise. -/
theorem verifyWebhook_challenge_behavior (secret : Str) (mode token challenge : Option Str) :
    (truthyStr mode = true ∧ token = some secret →
        verifyWebhook secret mode token challenge = (200, challenge.getD [])) ∧
    (¬ (truthyStr mode = true ∧ token = some secret) →
        verifyWebhook secret mode token challenge = (403, [])) := by
  constructor
  · intro h
    unfold verifyWebhook
    rw [if_pos h]
  · intro h
    unfold verifyWebhook
    rw [if_neg h]

theorem verifyWebhook_challenge_behavior_witness :
    verifyWebhook DEFAULT_VERIFY_TOKEN (some "subscribe".data)
        (some DEFAULT_VERIFY_TOKEN) (some "c1".data) = (200, "c1".data) ∧
    verifyWebhook DEFAULT_VERIFY_TOKEN (some "subscribe".data)
        (some "wrong".data) (some "c1".data) = (403, []) :=
  ⟨(verifyWebhook_challenge_behavior DEFAULT_VERIFY_TOKEN (some "subscribe".data)
      (some DEFAULT_VERIFY_TOKEN) (some "c1".data)).1 (by exact ⟨rfl, rfl⟩),
   (verifyWebhook_challenge_behavior DEFAULT_VERIFY_TOKEN (some "subscribe".data)
      (some "wrong".data) (some "c1".data)).2 (by decide)⟩

theorem length_ltrim_le (l : Str) : (ltrim l).length ≤ l.length :=
  (List.dropWhile_sublist isWsB).length_le

theorem length_rtrim_le (l : Str) : (rtrim l).length ≤ l.length := by
  unfold rtrim
  rw [List.length_reverse]
  calc (l.reverse.dropWhile isWsB).length ≤ l.reverse.length :=
        (List.dropWhile_sublist isWsB).length_le
    _ = l.length := List.length_reverse l

theorem length_trim_le (l : Str) : (trim l).length ≤ l.length :=
  Nat.le_trans (length_ltrim_le _) (length_rtrim_le l)

theorem dropWhile_append_all {p : Char → Bool} {a : Str} (b : Str)
    (h : ∀ c ∈ a, p c = true) : (a ++ b).dropWhile p = b.dropWhile p := by
  induction a with
  | nil => rfl
  | cons x t ih =>
      rw [List.cons_append, List.dropWhile_cons]
      rw [h x (by simp)]
      simp only [if_true]
      exact ih fun c hc => h c (by simp [hc])

theorem rtrim_append_ws {w : Str} (u : Str) (h : ∀ c ∈ w, isWsB c = true) :
    rtrim (u ++ w) = rtrim u := by
  unfold rtrim
  rw [List.reverse_append]
  rw [dropWhile_append_all u.reverse (fun c hc => h c (List.mem_reverse.1 hc))]

theorem length_trim_append_ws_le {w : Str} (u : Str) (h : ∀ c ∈ w, isWsB c = true) :
    (trim (u ++ w)).length ≤ u.length := by
  unfold trim
  rw [rtrim_append_ws u h]
  exact Nat.le_trans (length_ltrim_le _) (length_rtrim_le u)

theorem trim_eq_nil_all_ws {l : Str} (h : trim l = []) : ∀ c ∈ l, isWsB c = true := by
  intro c hc
  unfold trim ltrim at h
  have hrt : ∀ x ∈ rtrim l, isWsB x = true := List.dropWhile_eq_nil_iff.1 h
  have hrev : c ∈ l.reverse := List.mem_reverse.2 hc
  rw [← List.takeWhile_append_dropWhile isWsB l.reverse] at hrev
  rcases List.mem_append.1 hrev with h1 | h2
  · exact List.mem_takeWhile_imp h1
  · exact hrt c (by
      unfold rtrim
      exact List.mem_reverse.2 h2)

theorem hasContent_trim_ne {l : Str} (h : hasContent l) : trim l ≠ [] := by
  intro hnil
  obtain ⟨c, hc, hws⟩ := h
  rw [trim_eq_nil_all_ws hnil c hc] at hws
  exact absurd hws (by simp)

theorem nn_all_ws : ∀ c ∈ (['\n', '\n'] : Str), isWsB c = true := by decide

theorem smParaStep_inv {maxLength : Nat} {st : List Str × Str} {p : Str}
    (hp : p.length ≤ maxLength) (h : SMInv maxLength st) :
    SMInv maxLength (smParaStep maxLength st p) := by
  obtain ⟨hchunks, hcur⟩ := h
  unfold smParaStep
  by_cases hcond : maxLength < (st.2 ++ p).length
  · rw [if_pos hcond, if_neg (Nat.not_lt.2 hp)]
    constructor
    · intro c hc
      by_cases hne : st.2 ≠ []
      · rw [if_pos hne] at hc
        rcases List.mem_append.1 hc with h1 | h2
        · exact hchunks c h1
        · rcases hcur with hnil | ⟨u, hu, hul⟩
          · exact absurd hnil hne
          · have : c = trim st.2 := by simpa using h2
            subst this
            rw [hu]
            exact Nat.le_trans (length_trim_append_ws_le u nn_all_ws) hul
      · rw [if_neg hne] at hc
        exact hchunks c hc
    · exact Or.inr ⟨p, rfl, hp⟩
  · rw [if_neg hcond]
    refine ⟨hchunks, Or.inr ⟨st.2 ++ p, by simp, ?_⟩⟩
    have := Nat.not_lt.1 hcond
    simpa using this

theorem smFold_inv {maxLength : Nat} (ps : List Str) :
    ∀ (st : List Str × Str), (∀ p ∈ ps, p.length ≤ maxLength) → SMInv maxLength st →
      SMInv maxLength (ps.foldl (smParaStep maxLength) st) := by
  induction ps with
  | nil => intro st _ h; exact h
  | cons p t ih =>
      intro st hps h
      rw [List.foldl_cons]
      exact ih _ (fun q hq => hps q (by simp [hq]))
        (smParaStep_inv (hps p (by simp)) h)

theorem sicParaStep_inv {maxChars : Nat} {st : List Str × Str} {p : Str}
    (hp : p.length ≤ maxChars) (h : SICInv maxChars st) :
    SICInv maxChars (sicParaStep maxChars st p) ∧
    ((st.1 ≠ [] ∨ hasContent st.2 ∨ hasContent p) →
      ((sicParaStep maxChars st p).1 ≠ [] ∨ hasContent (sicParaStep maxChars st p).2)) := by
  obtain ⟨hchunks, hcur⟩ := h
  unfold sicParaStep
  by_cases hcond : maxChars < (st.2 ++ '\n' :: '\n' :: p).length
  · rw [if_pos hcond, if_neg (Nat.not_lt.2 hp)]
    have hch1 : ∀ c ∈ (if trim st.2 ≠ [] then st.1 ++ [trim st.2] else st.1),
        c.length ≤ maxChars := by
      intro c hc
      by_cases ht : trim st.2 ≠ []
      · rw [if_pos ht] at hc
        rcases List.mem_append.1 hc with h1 | h2
        · exact hchunks c h1
        · have : c = trim st.2 := by simpa using h2
          subst this
          exact Nat.le_trans (length_trim_le st.2) hcur
      · rw [if_neg ht] at hc
        exact hchunks c hc
    refine ⟨⟨hch1, hp⟩, ?_⟩
    rintro (h1 | h2 | h3)
    · left
      by_cases ht : trim st.2 ≠ []
      · rw [if_pos ht]; simp
      · rw [if_neg ht]; exact h1
    · left
      rw [if_pos (hasContent_trim_ne h2)]
      simp
    · right
      exact h3
  · rw [if_neg hcond]
    have hlen : st.2.length + 2 + p.length ≤ maxChars := by
      have := Nat.not_lt.1 hcond
      simp at this
      omega
    constructor
    · refine ⟨hchunks, ?_⟩
      by_cases hne : st.2 ≠ []
      · rw [if_pos hne]; simp; omega
      · rw [if_neg hne]; simp; omega
    · rintro (h1 | h2 | h3)
      · exact Or.inl h1
      · right
        obtain ⟨c, hc, hws⟩ := h2
        exact ⟨c, List.mem_append.2 (Or.inl hc), hws⟩
      · right
        obtain ⟨c, hc, hws⟩ := h3
        refine ⟨c, List.mem_append.2 (Or.inr ?_), hws⟩
        by_cases hne : st.2 ≠ []
        · rw [if_pos hne]; simp [hc]
        · rw [if_neg hne]; exact hc

theorem sicFold_inv {maxChars : Nat} (ps : List Str) :
    ∀ (st : List Str × Str), (∀ p ∈ ps, p.length ≤ maxChars) → SICInv maxChars st →
      SICInv maxChars (ps.foldl (sicParaStep maxChars) st) ∧
      ((st.1 ≠ [] ∨ hasContent st.2 ∨ ∃ p ∈ ps, hasContent p) →
        ((ps.foldl (sicParaStep maxChars) st).1 ≠ [] ∨
          hasContent (ps.foldl (sicParaStep maxChars) st).2)) := by
  induction ps with
  | nil =>
      intro st _ h
      exact ⟨h, by rintro (h1 | h2 | ⟨p, hp, _⟩); exacts [Or.inl h1, Or.inr h2, absurd hp (by simp)]⟩
  | cons p t ih =>
      intro st hps h
      rw [List.foldl_cons]
      obtain ⟨hstep, htrans⟩ := sicParaStep_inv (hps p (by simp)) h
      obtain ⟨hinv, htail⟩ := ih _ (fun q hq => hps q (by simp [hq])) hstep
      refine ⟨hinv, ?_⟩
      intro hd
      apply htail
      have lift : (sicParaStep maxChars st p).1 ≠ [] ∨ hasContent (sicParaStep maxChars st p).2 →
          (sicParaStep maxChars st p).1 ≠ [] ∨ hasContent (sicParaStep maxChars st p).2 ∨
            ∃ q ∈ t, hasContent q := by
        rintro (ha | hb)
        · exact Or.inl ha
        · exact Or.inr (Or.inl hb)
      rcases hd with h1 | h2 | ⟨q, hq, hcq⟩
      · exact lift (htrans (Or.inl h1))
      · exact lift (htrans (Or.inr (Or.inl h2)))
      · rcases List.mem_cons.1 hq with rfl | hq2
        · exact lift (htrans (Or.inr (Or.inr hcq)))
        · exact Or.inr (Or.inr ⟨q, hq2, hcq⟩)

theorem split2go_ne_nil (a b : Char) (cur s : Str) : split2go a b cur s ≠ [] := by
  induction cur, s using split2go.induct a b with
  | case1 cur => simp [split2go]
  | case2 cur x => simp [split2go]
  | case3 cur x y t hxy ih => simp [split2go, hxy]
  | case4 cur x y t hxy ih => simpa [split2go, hxy] using ih

theorem split2go_joinSep (a b : Char) (cur s : Str) :
    joinSep [a, b] (split2go a b cur s) = cur.reverse ++ s := by
  induction cur, s using split2go.induct a b with
  | case1 cur => simp [split2go, joinSep]
  | case2 cur x => simp [split2go, joinSep]
  | case3 cur x y t hxy ih =>
      obtain ⟨rfl, rfl⟩ := hxy
      rw [show split2go x y cur (x :: y :: t) = cur.reverse :: split2go x y [] t by
        simp [split2go]]
      cases hL : split2go x y [] t with
      | nil => exact absurd hL (split2go_ne_nil x y [] t)
      | cons z zs =>
          rw [joinSep]
          rw [← hL, ih]
          simp
  | case4 cur x y t hxy ih =>
      rw [show split2go a b cur (x :: y :: t) = split2go a b (x :: cur) (y :: t) by
        simp [split2go, hxy]]
      rw [ih]
      simp

theorem split2_joinSep (a b : Char) (s : Str) : joinSep [a, b] (split2 a b s) = s :=
  split2go_joinSep a b [] s

theorem mem_joinSep {c : Char} {sep : Str} :
    ∀ {L : List Str}, c ∈ joinSep sep L → (∃ p ∈ L, c ∈ p) ∨ c ∈ sep := by
  intro L
  induction L with
  | nil => intro h; simp [joinSep] at h
  | cons x xs ih =>
      cases xs with
      | nil =>
          intro h
          rw [show joinSep sep [x] = x from rfl] at h
          exact Or.inl ⟨x, by simp, h⟩
      | cons y t =>
          intro h
          rw [joinSep] at h
          rcases List.mem_append.1 h with h1 | h2
          · rcases List.mem_append.1 h1 with h3 | h4
            · exact Or.inl ⟨x, by simp, h3⟩
            · exact Or.inr h4
          · rcases ih h2 with ⟨p, hp, hcp⟩ | hs
            · exact Or.inl ⟨p, by simp [hp], hcp⟩
            · exact Or.inr hs

/-- C5 counterexample: a single sentence longer than the limit is emitted as
one oversized chunk by both splitters (and `splitMessage` even appends a
period that was never in the input). -/
theorem splitMessage_chunk_exceeds_max :
    splitMessage "aaaaaa".data 4 = ["aaaaaa.".data] ∧
    4 < ("aaaaaa.".data : Str).length ∧
    splitIntoChunks "aaaaaa".data 4 = ["aaaaaa".data] ∧
    4 < ("aaaaaa".data : Str).length := by
  refine ⟨by decide, by decide, by decide, by decide⟩


theorem PieceConcat.append {P : List Str} {a b : Str}
    (ha : PieceConcat P a) (hb : PieceConcat P b) : PieceConcat P (a ++ b) := by
  induction ha with
  | nil => simpa using hb
  | piece x rest hx _ ih =>
      rw [List.append_assoc]
      exact PieceConcat.piece x _ hx ih
  | sep s rest hs _ ih =>
      rw [List.append_assoc]
      exact PieceConcat.sep s _ hs ih

theorem PieceConcat.one_piece {P : List Str} {x : Str} (hx : x ∈ P) : PieceConcat P x := by
  have h := PieceConcat.piece x [] hx PieceConcat.nil
  simpa using h

theorem PieceConcat.one_sep {P : List Str} {s : Str} (hs : s ∈ sepChoices) :
    PieceConcat P s := by
  have h := PieceConcat.sep s [] hs (@PieceConcat.nil P)
  simpa using h

theorem smSentStep_pieces {maxLength : Nat} {P : List Str} {st : List Str × Str} {s : Str}
    (hs : s ∈ P) (h : PieceInv P st) : PieceInv P (smSentStep maxLength st s) := by
  obtain ⟨hchunks, hcur⟩ := h
  unfold smSentStep
  by_cases hcond : maxLength < (st.2 ++ s).length
  · rw [if_pos hcond]
    refine ⟨?_, PieceConcat.append (PieceConcat.one_piece hs)
      (PieceConcat.one_sep (by decide))⟩
    intro c hc
    by_cases hne : st.2 ≠ []
    · rw [if_pos hne] at hc
      rcases List.mem_append.1 hc with h1 | h2
      · exact hchunks c h1
      · exact ⟨st.2, hcur, by simpa using h2⟩
    · rw [if_neg hne] at hc
      exact hchunks c hc
  · rw [if_neg hcond]
    exact ⟨hchunks, PieceConcat.append (PieceConcat.append hcur (PieceConcat.one_piece hs))
      (PieceConcat.one_sep (by decide))⟩

theorem smSentFold_pieces {maxLength : Nat} {P : List Str} (ss : List Str) :
    ∀ st : List Str × Str, (∀ s ∈ ss, s ∈ P) → PieceInv P st →
      PieceInv P (ss.foldl (smSentStep maxLength) st) := by
  induction ss with
  | nil => intro st _ h; exact h
  | cons s t ih =>
      intro st hss h
      rw [List.foldl_cons]
      exact ih _ (fun q hq => hss q (by simp [hq]))
        (smSentStep_pieces (hss s (by simp)) h)

theorem smParaStep_pieces {maxLength : Nat} {text : Str} {st : List Str × Str} {p : Str}
    (hp : p ∈ split2 '\n' '\n' text) (h : PieceInv (smPieces text) st) :
    PieceInv (smPieces text) (smParaStep maxLength st p) := by
  obtain ⟨hchunks, hcur⟩ := h
  have hpmem : p ∈ smPieces text := List.mem_append.2 (Or.inl hp)
  unfold smParaStep
  by_cases hcond : maxLength < (st.2 ++ p).length
  · rw [if_pos hcond]
    have hch1 : ∀ c ∈ (if st.2 ≠ [] then st.1 ++ [trim st.2] else st.1),
        ∃ w, PieceConcat (smPieces text) w ∧ c = trim w := by
      intro c hc
      by_cases hne : st.2 ≠ []
      · rw [if_pos hne] at hc
        rcases List.mem_append.1 hc with h1 | h2
        · exact hchunks c h1
        · exact ⟨st.2, hcur, by simpa using h2⟩
      · rw [if_neg hne] at hc
        exact hchunks c hc
    by_cases hlong : maxLength < p.length
    · rw [if_pos hlong]
      refine smSentFold_pieces (split2 '.' ' ' p) _ ?_ ⟨hch1, PieceConcat.nil⟩
      intro s hsm
      exact List.mem_append.2 (Or.inr (List.mem_flatMap.2 ⟨p, hp, hsm⟩))
    · rw [if_neg hlong]
      exact ⟨hch1, PieceConcat.append (PieceConcat.one_piece hpmem)
        (PieceConcat.one_sep (by decide))⟩
  · rw [if_neg hcond]
    exact ⟨hchunks, PieceConcat.append
      (PieceConcat.append hcur (PieceConcat.one_piece hpmem))
      (PieceConcat.one_sep (by decide))⟩

theorem smParaFold_pieces {maxLength : Nat} {text : Str} (ps : List Str) :
    ∀ st : List Str × Str, (∀ p ∈ ps, p ∈ split2 '\n' '\n' text) →
      PieceInv (smPieces text) st →
      PieceInv (smPieces text) (ps.foldl (smParaStep maxLength) st) := by
  induction ps with
  | nil => intro st _ h; exact h
  | cons p t ih =>
      intro st hps h
      rw [List.foldl_cons]
      exact ih _ (fun q hq => hps q (by simp [hq]))
        (smParaStep_pieces (hps p (by simp)) h)

theorem sicSentStep_pieces {maxChars : Nat} {P : List Str} {st : List Str × Str} {s : Str}
    (hs : s ∈ P) (h : PieceInv P st) : PieceInv P (sicSentStep maxChars st s) := by
  obtain ⟨hchunks, hcur⟩ := h
  unfold sicSentStep
  by_cases hcond : maxChars < (st.2 ++ ' ' :: s).length
  · rw [if_pos hcond]
    refine ⟨?_, PieceConcat.one_piece hs⟩
    intro c hc
    by_cases ht : trim st.2 ≠ []
    · rw [if_pos ht] at hc
      rcases List.mem_append.1 hc with h1 | h2
      · exact hchunks c h1
      · exact ⟨st.2, hcur, by simpa using h2⟩
    · rw [if_neg ht] at hc
      exact hchunks c hc
  · rw [if_neg hcond]
    refine ⟨hchunks, ?_⟩
    by_cases hne : st.2 ≠ []
    · rw [if_pos hne]
      show PieceConcat P (st.2 ++ ([' '] ++ s))
      exact PieceConcat.append hcur (PieceConcat.append (PieceConcat.one_sep (by decide))
        (PieceConcat.one_piece hs))
    · rw [if_neg hne]
      exact PieceConcat.append hcur (PieceConcat.one_piece hs)

theorem sicSentFold_pieces {maxChars : Nat} {P : List Str} (ss : List Str) :
    ∀ st : List Str × Str, (∀ s ∈ ss, s ∈ P) → PieceInv P st →
      PieceInv P (ss.foldl (sicSentStep maxChars) st) := by
  induction ss with
  | nil => intro st _ h; exact h
  | cons s t ih =>
      intro st hss h
      rw [List.foldl_cons]
      exact ih _ (fun q hq => hss q (by simp [hq]))
        (sicSentStep_pieces (hss s (by simp)) h)

theorem sicParaStep_pieces {maxChars : Nat} {text : Str} {st : List Str × Str} {p : Str}
    (hp : p ∈ split2 '\n' '\n' text) (h : PieceInv (sicPieces text) st) :
    PieceInv (sicPieces text) (sicParaStep maxChars st p) := by
  obtain ⟨hchunks, hcur⟩ := h
  have hpmem : p ∈ sicPieces text := List.mem_append.2 (Or.inl hp)
  unfold sicParaStep
  by_cases hcond : maxChars < (st.2 ++ '\n' :: '\n' :: p).length
  · rw [if_pos hcond]
    have hch1 : ∀ c ∈ (if trim st.2 ≠ [] then st.1 ++ [trim st.2] else st.1),
        ∃ w, PieceConcat (sicPieces text) w ∧ c = trim w := by
      intro c hc
      by_cases ht : trim st.2 ≠ []
      · rw [if_pos ht] at hc
        rcases List.mem_append.1 hc with h1 | h2
        · exact hchunks c h1
        · exact ⟨st.2, hcur, by simpa using h2⟩
      · rw [if_neg ht] at hc
        exact hchunks c hc
    have hcur1 : PieceConcat (sicPieces text) (if trim st.2 ≠ [] then [] else st.2) := by
      by_cases ht : trim st.2 ≠ []
      · rw [if_pos ht]
        exact PieceConcat.nil
      · rw [if_neg ht]
        exact hcur
    by_cases hlong : maxChars < p.length
    · rw [if_pos hlong]
      refine sicSentFold_pieces _ _ ?_ ⟨hch1, hcur1⟩
      intro s hsm
      by_cases hemp : (matchSentences p).isEmpty
      · rw [if_pos hemp] at hsm
        have : s = p := by simpa using hsm
        subst this
        exact hpmem
      · rw [if_neg hemp] at hsm
        exact List.mem_append.2 (Or.inr (List.mem_flatMap.2 ⟨p, hp, hsm⟩))
    · rw [if_neg hlong]
      exact ⟨hch1, PieceConcat.one_piece hpmem⟩
  · rw [if_neg hcond]
    refine ⟨hchunks, ?_⟩
    by_cases hne : st.2 ≠ []
    · rw [if_pos hne]
      show PieceConcat (sicPieces text) (st.2 ++ (['\n', '\n'] ++ p))
      exact PieceConcat.append hcur (PieceConcat.append (PieceConcat.one_sep (by decide))
        (PieceConcat.one_piece hpmem))
    · rw [if_neg hne]
      exact PieceConcat.append hcur (PieceConcat.one_piece hpmem)

theorem sicParaFold_pieces {maxChars : Nat} {text : Str} (ps : List Str) :
    ∀ st : List Str × Str, (∀ p ∈ ps, p ∈ split2 '\n' '\n' text) →
      PieceInv (sicPieces text) st →
      PieceInv (sicPieces text) (ps.foldl (sicParaStep maxChars) st) := by
  induction ps with
  | nil => intro st _ h; exact h
  | cons p t ih =>
      intro st hps h
      rw [List.foldl_cons]
      exact ih _ (fun q hq => hps q (by simp [hq]))
        (sicParaStep_pieces (hps p (by simp)) h)

/-- C5 amended: when every paragraph of the input fits in the limit, every
chunk produced by `splitMessage` fits in the limit, and if additionally the
input has any non-whitespace character, the same holds for `splitIntoChunks`
(a single sentence longer than the limit is emitted whole as one oversized
chunk); and, unconditionally, no sentence is split across chunks: every chunk
of either splitter is the whole input or the trim of a concatenation of whole
paragraph/sentence pieces of the input joined by separators. -/
theorem split_chunk_length_bound (text : Str) (maxLength : Nat) :
    ((∀ p ∈ split2 '\n' '\n' text, p.length ≤ maxLength) →
        (∀ c ∈ splitMessage text maxLength, c.length ≤ maxLength) ∧
        (hasContent text → ∀ c ∈ splitIntoChunks text maxLength, c.length ≤ maxLength)) ∧
    (∀ c ∈ splitMessage text maxLength, IntactChunk (smPieces text) text c) ∧
    (∀ c ∈ splitIntoChunks text maxLength, IntactChunk (sicPieces text) text c) := by
  refine ⟨fun hp => ?_, ?_, ?_⟩
  ·
    constructor
    · intro c hc
      unfold splitMessage at hc
      by_cases hshort : text.length ≤ maxLength
      · rw [if_pos hshort] at hc
        have : c = text := by simpa using hc
        subst this
        exact hshort
      · rw [if_neg hshort] at hc
        have hinv := smFold_inv (split2 '\n' '\n' text) ([], []) hp
          ⟨by simp, Or.inl rfl⟩
        set r := (split2 '\n' '\n' text).foldl (smParaStep maxLength) ([], []) with hr
        obtain ⟨hchunks, hcur⟩ := hinv
        by_cases hne : r.2 ≠ []
        · rw [if_pos hne] at hc
          rcases List.mem_append.1 hc with h1 | h2
          · exact hchunks c h1
          · have : c = trim r.2 := by simpa using h2
            subst this
            rcases hcur with hnil | ⟨u, hu, hul⟩
            · exact absurd hnil hne
            · rw [hu]
              exact Nat.le_trans (length_trim_append_ws_le u nn_all_ws) hul
        · rw [if_neg hne] at hc
          exact hchunks c hc
    · intro hcontent c hc
      unfold splitIntoChunks at hc
      by_cases hshort : text.length ≤ maxLength
      · rw [if_pos hshort] at hc
        have : c = text := by simpa using hc
        subst this
        exact hshort
      · rw [if_neg hshort] at hc
        have hpara : ∃ p ∈ split2 '\n' '\n' text, hasContent p := by
          obtain ⟨ch, hch, hws⟩ := hcontent
          rw [← split2_joinSep '\n' '\n' text] at hch
          rcases mem_joinSep hch with ⟨p, hpmem, hcp⟩ | hsep
          · exact ⟨p, hpmem, ⟨ch, hcp, hws⟩⟩
          · exfalso
            have : isWsB ch = true := nn_all_ws ch hsep
            rw [this] at hws
            exact absurd hws (by simp)
        have hfold := sicFold_inv (split2 '\n' '\n' text) ([], []) hp ⟨by simp, by simp⟩
        set r := (split2 '\n' '\n' text).foldl (sicParaStep maxLength) ([], []) with hr
        obtain ⟨⟨hchunks, hcur⟩, htrans⟩ := hfold
        have hne : (if trim r.2 ≠ [] then r.1 ++ [trim r.2] else r.1) ≠ [] := by
          rcases htrans (Or.inr (Or.inr hpara)) with h1 | h2
          · by_cases ht : trim r.2 ≠ []
            · rw [if_pos ht]; simp
            · rw [if_neg ht]; exact h1
          · rw [if_pos (hasContent_trim_ne h2)]; simp
        rw [if_neg (by simpa using hne)] at hc
        by_cases ht : trim r.2 ≠ []
        · rw [if_pos ht] at hc
          rcases List.mem_append.1 hc with h1 | h2
          · exact hchunks c h1
          · have : c = trim r.2 := by simpa using h2
            subst this
            exact Nat.le_trans (length_trim_le r.2) hcur
        · rw [if_neg ht] at hc
          exact hchunks c hc
  · intro c hc
    unfold splitMessage at hc
    by_cases hshort : text.length ≤ maxLength
    · rw [if_pos hshort] at hc
      exact Or.inl (by simpa using hc)
    · rw [if_neg hshort] at hc
      have hfold := @smParaFold_pieces maxLength text (split2 '\n' '\n' text) ([], [])
        (fun p hpm => hpm) ⟨by simp, PieceConcat.nil⟩
      set r := (split2 '\n' '\n' text).foldl (smParaStep maxLength) ([], []) with hr
      obtain ⟨hchunks, hcur⟩ := hfold
      by_cases hne : r.2 ≠ []
      · rw [if_pos hne] at hc
        rcases List.mem_append.1 hc with h1 | h2
        · exact Or.inr (hchunks c h1)
        · exact Or.inr ⟨r.2, hcur, by simpa using h2⟩
      · rw [if_neg hne] at hc
        exact Or.inr (hchunks c hc)
  · intro c hc
    unfold splitIntoChunks at hc
    by_cases hshort : text.length ≤ maxLength
    · rw [if_pos hshort] at hc
      exact Or.inl (by simpa using hc)
    · rw [if_neg hshort] at hc
      have hfold := @sicParaFold_pieces maxLength text (split2 '\n' '\n' text) ([], [])
        (fun p hpm => hpm) ⟨by simp, PieceConcat.nil⟩
      set r := (split2 '\n' '\n' text).foldl (sicParaStep maxLength) ([], []) with hr
      obtain ⟨hchunks, hcur⟩ := hfold
      by_cases hemp : (if trim r.2 ≠ [] then r.1 ++ [trim r.2] else r.1).isEmpty
      · rw [if_pos hemp] at hc
        exact Or.inl (by simpa using hc)
      · rw [if_neg hemp] at hc
        by_cases ht : trim r.2 ≠ []
        · rw [if_pos ht] at hc
          rcases List.mem_append.1 hc with h1 | h2
          · exact Or.inr (hchunks c h1)
          · exact Or.inr ⟨r.2, hcur, by simpa using h2⟩
        · rw [if_neg ht] at hc
          exact Or.inr (hchunks c hc)

/-- Claim C5 witness: a concrete two-paragraph input exercising the length
bounds and the sentence-integrity conclusion of the amended theorem. -/
theorem split_chunk_length_bound_witness :
    (∀ p ∈ split2 '\n' '\n' "one two.\n\nthree four.".data, p.length ≤ 12) ∧
    hasContent "one two.\n\nthree four.".data ∧
    (∀ c ∈ splitMessage "one two.\n\nthree four.".data 12, c.length ≤ 12) ∧
    (∀ c ∈ splitIntoChunks "one two.\n\nthree four.".data 12, c.length ≤ 12) ∧
    (∀ c ∈ splitMessage "one two.\n\nthree four.".data 12,
        IntactChunk (smPieces "one two.\n\nthree four.".data)
          "one two.\n\nthree four.".data c) ∧
    (∀ c ∈ splitIntoChunks "one two.\n\nthree four.".data 12,
        IntactChunk (sicPieces "one two.\n\nthree four.".data)
          "one two.\n\nthree four.".data c) := by
  have h := split_chunk_length_bound "one two.\n\nthree four.".data 12
  exact ⟨by decide, by decide, (h.1 (by decide)).1, (h.1 (by decide)).2 (by decide),
    h.2.1, h.2.2⟩

theorem echo_or_self_event_no_effect (pageID : Str) (comp : Except Unit Str)
    (sendOk : Bool) (st : BotState) (ev : MessagingEvent) (now : Nat)
    (h : (∃ m, ev.message = some m ∧ m.is_echo = true) ∨
         (∃ s, ev.sender = some s ∧ s.id = pageID)) :
    processEvent pageID comp sendOk st ev now = ⟨st, [], false⟩ := by
  have hguard : eventGuard pageID ev = false := by
    unfold eventGuard
    rcases h with ⟨m, hm, hecho⟩ | ⟨s, hs, hid⟩
    · rw [hm]
      cases hsend : ev.sender with
      | none => rfl
      | some s => simp [hecho]
    · rw [hs]
      cases hmsg : ev.message with
      | none => rfl
      | some m => simp [hid]
  unfold processEvent
  rw [hguard]
  rfl

theorem echo_or_self_event_no_effect_witness :
    processEvent ['p'] (Except.ok ['o']) true ⟨[], []⟩
        ⟨some ⟨some ['h'], true, ['m']⟩, some ⟨['u']⟩, none⟩ 3
      = ⟨⟨[], []⟩, [], false⟩ :=
  echo_or_self_event_no_effect ['p'] (Except.ok ['o']) true ⟨[], []⟩
    ⟨some ⟨some ['h'], true, ['m']⟩, some ⟨['u']⟩, none⟩ 3
    (Or.inl ⟨⟨some ['h'], true, ['m']⟩, rfl, rfl⟩)

theorem processMessage_ok_eq (st : BotState) (u text1 reply : Str) (t1 : Nat)
    (hrate : lookupKey st.rate u = none) (ht1 : RATE_LIMIT_MS ≤ t1)
    (hlen : ((lookupKey st.hist u).getD []).length ≤ 9) :
    processMessage (.ok reply) true st u text1 t1
      = ⟨⟨setKey u ((lookupKey st.hist u).getD [] ++ [⟨Role.user, text1⟩]
              ++ [⟨Role.assistant, reply⟩]) st.hist,
          setKey u t1 st.rate⟩,
         FbAction.typingOn :: FbAction.completionCall ::
           ((splitMessage reply 2000).map FbAction.send ++ [FbAction.typingOff]),
         false⟩ := by
  have hA : ¬ (t1 - 0 < RATE_LIMIT_MS) := by
    rw [Nat.sub_zero]
    exact Nat.not_lt.2 ht1
  have hB : ¬ (MAX_HISTORY * 2 < ((lookupKey st.hist u).getD []).length + 1) := by
    unfold MAX_HISTORY
    omega
  simp only [processMessage, hrate, Option.getD_none, hA, if_false, List.length_append,
    List.length_cons, List.length_nil, hB, ite_false, ite_true]

/-- C8 amended: with rate limiting on, a second message inside the debounce
window after an accepted one is dropped without any action or completion,
while the accepted exchange made exactly one completion call and appended
exactly two turns (user plus assistant) to the session history. -/
theorem rate_limit_drops_second_message (st : BotState) (u text1 text2 reply : Str)
    (t1 t2 : Nat) (hrate : lookupKey st.rate u = none) (ht1 : RATE_LIMIT_MS ≤ t1)
    (ht2 : t2 - t1 < RATE_LIMIT_MS)
    (hlen : ((lookupKey st.hist u).getD []).length ≤ 9) :
    (processMessage (.ok reply) true st u text1 t1).actions.count FbAction.completionCall = 1 ∧
    processMessage (.ok reply) true (processMessage (.ok reply) true st u text1 t1).state u text2 t2
      = ⟨(processMessage (.ok reply) true st u text1 t1).state, [], false⟩ ∧
    ((lookupKey (processMessage (.ok reply) true st u text1 t1).state.hist u).getD []).length
      = ((lookupKey st.hist u).getD []).length + 2 := by
  rw [processMessage_ok_eq st u text1 reply t1 hrate ht1 hlen]
  refine ⟨?_, ?_, ?_⟩
  · simp only [List.count_cons, List.count_append]
    have h1 : (((splitMessage reply 2000).map FbAction.send).count FbAction.completionCall) = 0 := by
      rw [List.count_eq_zero]
      intro hmem
      rcases List.mem_map.1 hmem with ⟨a, _, ha⟩
      exact FbAction.noConfusion ha
    rw [h1]
    decide
  · unfold processMessage
    rw [show lookupKey (setKey u t1 st.rate) u = some t1 from lookupKey_setKey_self u t1 st.rate]
    simp only [Option.getD_some]
    rw [if_pos ht2]
  · rw [show lookupKey (setKey u ((lookupKey st.hist u).getD [] ++ [⟨Role.user, text1⟩]
        ++ [⟨Role.assistant, reply⟩]) st.hist) u = some _ from lookupKey_setKey_self u _ st.hist]
    simp

/-- C8 counterexample: in the stated scenario the second message is indeed
dropped with no second completion call, but the session history grows by two
entries (user turn and assistant turn), not by one. -/
theorem rate_limit_scenario_history_grows_by_two :
    (processMessage (.ok "Hi!".data) true ⟨[], []⟩ ['u'] "Hello".data 10000).actions.count
        FbAction.completionCall = 1 ∧
    processMessage (.ok "Hi!".data) true
        (processMessage (.ok "Hi!".data) true ⟨[], []⟩ ['u'] "Hello".data 10000).state
        ['u'] "Hello".data 11000
      = ⟨(processMessage (.ok "Hi!".data) true ⟨[], []⟩ ['u'] "Hello".data 10000).state,
         [], false⟩ ∧
    ((lookupKey (processMessage (.ok "Hi!".data) true
        (processMessage (.ok "Hi!".data) true ⟨[], []⟩ ['u'] "Hello".data 10000).state
        ['u'] "Hello".data 11000).state.hist ['u']).getD []).length = 2 ∧
    ((lookupKey (processMessage (.ok "Hi!".data) true
        (processMessage (.ok "Hi!".data) true ⟨[], []⟩ ['u'] "Hello".data 10000).state
        ['u'] "Hello".data 11000).state.hist ['u']).getD []).length ≠ 0 + 1 := by
  refine ⟨by decide, by decide, by decide, by decide⟩

theorem rate_limit_drops_second_message_witness :
    (processMessage (.ok ['o', 'k']) true ⟨[], []⟩ ['u'] ['h', 'i'] 5000).actions.count
        FbAction.completionCall = 1 ∧
    processMessage (.ok ['o', 'k']) true
        (processMessage (.ok ['o', 'k']) true ⟨[], []⟩ ['u'] ['h', 'i'] 5000).state
        ['u'] ['y', 'o'] 6000
      = ⟨(processMessage (.ok ['o', 'k']) true ⟨[], []⟩ ['u'] ['h', 'i'] 5000).state, [], false⟩ ∧
    ((lookupKey (processMessage (.ok ['o', 'k']) true ⟨[], []⟩ ['u'] ['h', 'i']
        5000).state.hist ['u']).getD []).length
      = ((lookupKey (⟨[], []⟩ : BotState).hist ['u']).getD []).length + 2 :=
  rate_limit_drops_second_message ⟨[], []⟩ ['u'] ['h', 'i'] ['y', 'o'] ['o', 'k'] 5000 6000
    (by decide) (by decide) (by decide) (by decide)

/-- C9: when the completion provider fails and the platform send succeeds,
the handler sends the canned apology exactly once through the normal send
path and no error escapes the per-message handler. -/
theorem completion_failure_single_apology (st : BotState) (u text : Str) (now : Nat)
    (hrate : ¬ (now - (lookupKey st.rate u).getD 0 < RATE_LIMIT_MS)) :
    (processMessage (.error ()) true st u text now).actions
        = [FbAction.typingOn, FbAction.completionCall, FbAction.send apologyText,
           FbAction.typingOff] ∧
    (processMessage (.error ()) true st u text now).actions.count
        (FbAction.send apologyText) = 1 ∧
    (processMessage (.error ()) true st u text now).propagated = false := by
  have he : processMessage (.error ()) true st u text now
      = ⟨⟨setKey u (let h1 := (lookupKey st.hist u).getD [] ++ [⟨Role.user, text⟩];
            if MAX_HISTORY * 2 < h1.length then takeLastN (MAX_HISTORY * 2) h1 else h1) st.hist,
          setKey u now st.rate⟩,
         [FbAction.typingOn, FbAction.completionCall, FbAction.send apologyText,
          FbAction.typingOff], false⟩ := by
    unfold processMessage
    rw [if_neg hrate]
    rfl
  rw [he]
  refine ⟨rfl, by rfl, rfl⟩

theorem completion_failure_single_apology_witness :
    ¬ (4000 - (lookupKey (⟨[], []⟩ : BotState).rate ['u']).getD 0 < RATE_LIMIT_MS) ∧
    ((processMessage (.error ()) true ⟨[], []⟩ ['u'] ['h'] 4000).actions
        = [FbAction.typingOn, FbAction.completionCall, FbAction.send apologyText,
           FbAction.typingOff] ∧
     (processMessage (.error ()) true ⟨[], []⟩ ['u'] ['h'] 4000).actions.count
        (FbAction.send apologyText) = 1 ∧
     (processMessage (.error ()) true ⟨[], []⟩ ['u'] ['h'] 4000).propagated = false) :=
  ⟨by decide, completion_failure_single_apology ⟨[], []⟩ ['u'] ['h'] 4000 (by decide)⟩

theorem charVal_digitChar : ∀ d : Nat, d < 10 → charVal (Nat.digitChar d) = d := by decide

theorem parseDigits_append_one (l : Str) (c : Char) :
    parseDigits (l ++ [c]) = parseDigits l * 10 + charVal c := by
  unfold parseDigits
  rw [List.foldl_append]
  rfl

theorem parseDigits_natReprGo : ∀ (fuel n : Nat), n < fuel →
    parseDigits (natReprGo fuel n) = n := by
  intro fuel
  induction fuel with
  | zero => intro n h; omega
  | succ fuel ih =>
      intro n h
      unfold natReprGo
      by_cases h10 : n < 10
      · rw [if_pos h10]
        show 0 * 10 + charVal (Nat.digitChar n) = n
        rw [charVal_digitChar n h10]
        omega
      · rw [if_neg h10]
        rw [parseDigits_append_one]
        rw [ih (n / 10) (by omega)]
        rw [charVal_digitChar (n % 10) (Nat.mod_lt n (by omega))]
        omega

theorem natRepr_injective {m n : Nat} (h : natRepr m = natRepr n) : m = n := by
  have hm := parseDigits_natReprGo (m + 1) m (Nat.lt_succ_self m)
  have hn := parseDigits_natReprGo (n + 1) n (Nat.lt_succ_self n)
  unfold natRepr at h
  rw [h] at hm
  rw [hn] at hm
  exact hm.symm

theorem digitChar_ne_colon : ∀ d : Nat, d < 10 → Nat.digitChar d ≠ ':' := by decide

theorem natReprGo_no_colon : ∀ (fuel n : Nat) (c : Char), c ∈ natReprGo fuel n → c ≠ ':' := by
  intro fuel
  induction fuel with
  | zero => intro n c h; simp [natReprGo] at h
  | succ fuel ih =>
      intro n c h
      unfold natReprGo at h
      by_cases h10 : n < 10
      · rw [if_pos h10] at h
        have : c = Nat.digitChar n := by simpa using h
        subst this
        exact digitChar_ne_colon n h10
      · rw [if_neg h10] at h
        rcases List.mem_append.1 h with h1 | h2
        · exact ih (n / 10) c h1
        · have : c = Nat.digitChar (n % 10) := by simpa using h2
          subst this
          exact digitChar_ne_colon (n % 10) (Nat.mod_lt n (by omega))

theorem natRepr_no_colon (n : Nat) (c : Char) (h : c ∈ natRepr n) : c ≠ ':' :=
  natReprGo_no_colon (n + 1) n c h

theorem append_colon_inj : ∀ (a b x y : Str), (∀ c ∈ a, c ≠ ':') → (∀ c ∈ b, c ≠ ':') →
    a ++ ':' :: x = b ++ ':' :: y → a = b ∧ x = y := by
  intro a
  induction a with
  | nil =>
      intro b x y _ hb h
      cases b with
      | nil => simpa using h
      | cons bc bt =>
          exfalso
          simp only [List.nil_append, List.cons_append, List.cons.injEq] at h
          exact hb bc (by simp) h.1.symm
  | cons ac at' ih =>
      intro b x y ha hb h
      cases b with
      | nil =>
          exfalso
          simp only [List.cons_append, List.nil_append, List.cons.injEq] at h
          exact ha ac (by simp) h.1
      | cons bc bt =>
          rw [List.cons_append, List.cons_append] at h
          injection h with h1 h2
          obtain ⟨h3, h4⟩ := ih bt x y (fun c hc => ha c (by simp [hc]))
            (fun c hc => hb c (by simp [hc])) h2
          exact ⟨by rw [h1, h3], h4⟩

theorem mkMessageKey_time_inj {t1 t2 : Nat} {s1 m1 s2 m2 : Str}
    (h : mkMessageKey t1 s1 m1 = mkMessageKey t2 s2 m2) : t1 = t2 := by
  unfold mkMessageKey at h
  obtain ⟨h1, -⟩ := append_colon_inj (natRepr t1) (natRepr t2) _ _
    (natRepr_no_colon t1) (natRepr_no_colon t2) h
  exact natRepr_injective h1

/-- C10: the duplicate-skip branch never fires across distinct timestamps:
if everything in the processed set was keyed at other times, a message (even
an exact redelivery) is processed at time t1 and processed again at time
t2 ≠ t1; the set only grows. -/
theorem dedup_never_filters_distinct_times (t1 t2 : Nat) (s m : Str) (S : List Str)
    (hS : ∀ k ∈ S, ∃ t s' m', k = mkMessageKey t s' m' ∧ t ≠ t1 ∧ t ≠ t2)
    (ht : t1 ≠ t2) :
    (dedupStep t1 s m S).1 = true ∧
    (dedupStep t2 s m (dedupStep t1 s m S).2).1 = true ∧
    (dedupStep t2 s m (dedupStep t1 s m S).2).2
      = mkMessageKey t2 s m :: mkMessageKey t1 s m :: S := by
  have hk1 : mkMessageKey t1 s m ∉ S := by
    intro hmem
    obtain ⟨t, s', m', hk, hne, -⟩ := hS _ hmem
    exact hne (mkMessageKey_time_inj hk).symm
  have e1 : dedupStep t1 s m S = (true, mkMessageKey t1 s m :: S) := by
    unfold dedupStep
    rw [if_neg hk1]
  have hk2 : mkMessageKey t2 s m ∉ mkMessageKey t1 s m :: S := by
    intro hmem
    rcases List.mem_cons.1 hmem with heq | hmem2
    · exact ht (mkMessageKey_time_inj heq).symm
    · obtain ⟨t, s', m', hk, -, hne⟩ := hS _ hmem2
      exact hne (mkMessageKey_time_inj hk).symm
  have e2 : dedupStep t2 s m (mkMessageKey t1 s m :: S) =
      (true, mkMessageKey t2 s m :: mkMessageKey t1 s m :: S) := by
    unfold dedupStep
    rw [if_neg hk2]
  rw [e1]
  rw [show ((true, mkMessageKey t1 s m :: S) : Bool × List Str).2
      = mkMessageKey t1 s m :: S from rfl]
  rw [e2]
  exact ⟨rfl, rfl, rfl⟩

theorem dedup_never_filters_distinct_times_witness :
    (∀ k ∈ ([] : List Str), ∃ t s' m', k = mkMessageKey t s' m' ∧ t ≠ 1000 ∧ t ≠ 1001) ∧
    (1000 ≠ 1001) ∧
    ((dedupStep 1000 ['u'] ['m'] []).1 = true ∧
     (dedupStep 1001 ['u'] ['m'] (dedupStep 1000 ['u'] ['m'] []).2).1 = true ∧
     (dedupStep 1001 ['u'] ['m'] (dedupStep 1000 ['u'] ['m'] []).2).2
       = mkMessageKey 1001 ['u'] ['m'] :: mkMessageKey 1000 ['u'] ['m'] :: []) :=
  ⟨by simp, by decide,
   dedup_never_filters_distinct_times 1000 1001 ['u'] ['m'] [] (by simp) (by decide)⟩
